import Mathlib

set_option maxRecDepth 8000

/-!
Verification model of `createVideo.py` (py_img_voicevox_video).

The script is a batch pipeline: list images, split a narration file into
paragraph blocks, synthesize one wav per item via an external TTS service,
render one clip per item via an external media tool, write a manifest of the
clips that exist, and concatenate them.

Modelling conventions:
* Python strings are `List Char`; file contents are the text after Python's
  universal-newline translation (so every line break is `'\n'`).
* The files the run reads and writes in the `audio/` and `clips/` directories
  are the abstract `FileId`s; the filesystem is the list of files that exist
  and are readable.  The external collaborators (TTS service, media tool) are
  oracles in `Env` deciding whether each invocation succeeds.
* Console output is modelled as the list of structured `Warn` values the run
  prints; the progress bar, directory creation and the transient
  `filelist.txt` handle are not observable and are not modelled.
* `get_wav_duration` (lines 45-49) is modelled only by whether it succeeds:
  it raises (uncaught in `main`) when the wav file is missing or unreadable.
  Its numeric value, a Python float division `frames / rate`, is not modelled.
-/

namespace CreateVideo

/-- Whitespace as recognised by Python's `str.strip` on this input: the ASCII
whitespace characters plus the two Unicode spaces that plausibly occur in the
Japanese narration text.  Line breaks are `'\n'` after newline translation. -/
def isWs (c : Char) : Bool :=
  c == ' ' || c == '\t' || c == '\n' || c == '\r' || c == '\x0b' || c == '\x0c' ||
    c == ' ' || c == '　'

/-- Remove leading whitespace (Python `str.lstrip`). -/
def lstrip (l : List Char) : List Char := l.dropWhile isWs

/-- Remove trailing whitespace (Python `str.rstrip`). -/
def rstrip (l : List Char) : List Char := l.rdropWhile isWs

/-- Python `str.strip()`: remove whitespace at both ends. -/
def strip (l : List Char) : List Char := lstrip (rstrip l)

/-- Prepend `pre` to the first block of a block list (splitter helper). -/
def consHead (pre : List Char) : List (List Char) → List (List Char)
  | [] => [pre]
  | b :: bs => (pre ++ b) :: bs

/-- Does the character list contain two consecutive `'\n'`? -/
def hasNN : List Char → Bool
  | [] => false
  | [_] => false
  | a :: b :: t => (a == '\n' && b == '\n') || hasNN (b :: t)

/-- Python `content.split("\n\n")`: split at each non-overlapping,
leftmost-first occurrence of two consecutive newlines. -/
def splitNN : List Char → List (List Char)
  | [] => [[]]
  | [c] => [[c]]
  | c1 :: c2 :: rest =>
    if c1 == '\n' && c2 == '\n' then [] :: splitNN rest
    else consHead [c1] (splitNN (c2 :: rest))

/-- Strip every block and drop the blocks that are empty after stripping:
Python `[b.strip() for b in blocks if b.strip()]` (line 42). -/
def cleanBlocks (bs : List (List Char)) : List (List Char) :=
  (bs.map strip).filter (fun b => !b.isEmpty)

/-- src/createVideo.py lines 39-43, `read_lines_with_paragraphs`:
`content.strip().split("\n\n")`, each block stripped, empty blocks
discarded.  `content` is the file text after newline translation. -/
def read_lines_with_paragraphs (content : List Char) : List (List Char) :=
  cleanBlocks (splitNN (strip content))

/-- Modelled from the spec's splitting rule (for comparison with
`read_lines_with_paragraphs`): a paragraph boundary is any maximal run of
whitespace containing at least two consecutive line breaks; every other
maximal whitespace run stays inside its block; each resulting block is
trimmed and blocks empty after trimming are discarded (the trimming and
discarding are `cleanBlocks`, applied by `specBlocks` below). -/
def specSplit : List Char → List (List Char)
  | [] => [[]]
  | c :: cs =>
    if isWs c then
      if hasNN (c :: cs.takeWhile isWs) then [] :: specSplit (cs.dropWhile isWs)
      else consHead (c :: cs.takeWhile isWs) (specSplit (cs.dropWhile isWs))
    else consHead [c] (specSplit cs)
termination_by l => l.length
decreasing_by
  · simpa using Nat.lt_succ_of_le (List.dropWhile_sublist isWs).length_le
  · simpa using Nat.lt_succ_of_le (List.dropWhile_sublist isWs).length_le
  · simp

/-- The spec's Paragraph Splitter: split at whitespace runs containing two
consecutive line breaks, trim each block, discard blocks empty after
trimming. -/
def specBlocks (content : List Char) : List (List Char) :=
  cleanBlocks (specSplit content)

/-- The final path component (pathlib `PurePath.name`): the characters after
the last `'/'`. -/
def lastComponent (p : List Char) : List Char :=
  (p.reverse.takeWhile (fun c => !(c == '/'))).reverse

/-- pathlib `PurePath.suffix` of a file name: the part from the last dot,
empty when the name has no dot, starts with its only dot, or ends with the
dot. -/
def nameSuffix (name : List Char) : List Char :=
  let ext := name.reverse.takeWhile (fun c => !(c == '.'))
  if 0 < ext.length ∧ ext.length + 1 < name.length then '.' :: ext.reverse else []

/-- src line 68: `image_exts = (".png", ".jpg", ".jpeg", ".bmp")`. -/
def image_exts : List (List Char) :=
  [".png".toList, ".jpg".toList, ".jpeg".toList, ".bmp".toList]

/-- src line 69 filter: `p.suffix.lower() in image_exts`.  `Char.toLower`
models `str.lower` (ASCII case folding; no non-ASCII character lowercases to
a letter of the four extensions). -/
def keepImage (p : List Char) : Bool :=
  decide (((nameSuffix (lastComponent p)).map Char.toLower) ∈ image_exts)

/-- Lexicographic (codepoint) comparison of character lists: Python's
string/path ordering used by `sorted`. -/
def lexLe : List Char → List Char → Bool
  | [], _ => true
  | _ :: _, [] => false
  | a :: as, b :: bs => if a < b then true else if a == b then lexLe as bs else false

/-- `lexLe` as a relation, for `List.insertionSort`. -/
def lexLeP (a b : List Char) : Prop := lexLe a b = true

instance : DecidableRel lexLeP := fun a b => inferInstanceAs (Decidable (lexLe a b = true))

/-- src line 69: `frames = sorted([p for p in frames_dir.iterdir() if
p.suffix.lower() in image_exts])`.  `imagePaths` is the directory listing
(full paths, arbitrary order). -/
def framesOf (imagePaths : List (List Char)) : List (List Char) :=
  List.insertionSort lexLeP (imagePaths.filter keepImage)

/-- The files the run checks, reads or writes in `audio/` and `clips/`:
`audio/line{i:03d}.wav` and `clips/clip{i:03d}.mp4` (1-based `i`). -/
inductive FileId where
  | audio (i : Nat)
  | clip (i : Nat)
deriving DecidableEq

/-- Python `f"{n:03d}"`: decimal digits left-padded with zeros to width 3. -/
def pad3 (n : Nat) : List Char :=
  let ds := Nat.toDigits 10 n
  if ds.length = 1 then '0' :: '0' :: ds else if ds.length = 2 then '0' :: ds else ds

/-- The path string of a `FileId` (lines 89-90). -/
def pathOf : FileId → List Char
  | .audio i => "audio/line".toList ++ pad3 i ++ ".wav".toList
  | .clip i => "clips/clip".toList ++ pad3 i ++ ".mp4".toList

/-- An ASCII apostrophe. -/
def quoteChar : Char := Char.ofNat 39

/-- src line 116: the manifest line `f"file '{clip}'"` for item `i`. -/
def lineFor (i : Nat) : List Char :=
  "file ".toList ++ [quoteChar] ++ pathOf (FileId.clip i) ++ [quoteChar]

/-- The observable console warnings and error reports of a run. -/
inductive Warn where
  /-- line 77: more text blocks than images. -/
  | imagesShort (nFrames nLines : Nat)
  /-- line 79: more images than text blocks. -/
  | linesShort (nFrames nLines : Nat)
  /-- line 35: synthesis failed; carries the `text[:30]` preview. -/
  | synthFail (preview : List Char)
  /-- line 110: ffmpeg render for clip `i` failed. -/
  | renderFail (i : Nat)
  /-- line 124: final concatenation failed. -/
  | concatFail
deriving DecidableEq

/-- The run's environment: the initial filesystem (files that exist and are
readable) and the outcome oracles for the external collaborators. -/
structure Env where
  /-- files under `audio/` and `clips/` existing when the run starts. -/
  fs0 : List FileId
  /-- whether the TTS synthesis for loop index `i` succeeds end-to-end
  (query call, synthesis call and file write).  On failure no readable wav
  is produced. -/
  ttsOk : Nat → Bool
  /-- whether the ffmpeg render invocation for loop index `i` exits 0. -/
  renderOk : Nat → Bool
  /-- whether the final ffmpeg concat invocation exits 0. -/
  concatOk : Bool

/-- State carried through the per-item loop (lines 86-110). -/
structure LoopState where
  fs : List FileId
  /-- loop indices for which the TTS service was invoked. -/
  ttsCalls : List Nat
  warns : List Warn
  /-- 1-based indices whose render invocation succeeded in this run. -/
  rendersOk : List Nat
  /-- the (image, text) pairs of the items whose processing was started. -/
  items : List (List Char × List Char)
  /-- an uncaught exception has terminated the loop. -/
  crashed : Bool

/-- src lines 14-37, `synthesize_voice`: two TTS HTTP calls and a file write,
wrapped in `try/except`.  On success the wav for item `i` is written and
`True` returned; on any failure a warning with the `text[:30]` preview is
printed and `False` returned.  Returns (result, filesystem, printed
warnings). -/
def synthesize_voice (ok : Bool) (text : List Char) (fs : List FileId) (i : Nat) :
    Bool × List FileId × List Warn :=
  if ok then (true, FileId.audio i :: fs, [])
  else (false, fs, [Warn.synthFail (text.take 30)])

/-- src lines 45-49, `get_wav_duration`, success only: `wave.open` succeeds
iff the file exists and is a readable wav.  When it fails the exception is
NOT caught in `main`. -/
def wavReadable (fs : List FileId) (i : Nat) : Bool := decide (FileId.audio i ∈ fs)

/-- One iteration of the loop at src lines 86-110 for loop index `i`
(0-based; item index is `i+1`):
line 92: if the wav does not already exist, call `synthesize_voice`
(its boolean result is discarded by `main`);
line 95: `get_wav_duration` — raises out of `main` if the wav is absent,
so the remaining items are never attempted (`crashed`);
lines 97-110: ffmpeg render, its `CalledProcessError` caught and logged. -/
def processItem (env : Env) (frames texts : List (List Char)) (st : LoopState) (i : Nat) :
    LoopState :=
  if st.crashed then st
  else
    let items1 := st.items ++ [(frames.getD i [], texts.getD i [])]
    let audio := FileId.audio (i + 1)
    let afterSynth :=
      if audio ∈ st.fs then (st.fs, st.ttsCalls, st.warns)
      else
        let r := synthesize_voice (env.ttsOk i) (texts.getD i []) st.fs (i + 1)
        (r.2.1, st.ttsCalls ++ [i], st.warns ++ r.2.2)
    if wavReadable afterSynth.1 (i + 1) then
      if env.renderOk i then
        { fs := FileId.clip (i + 1) :: afterSynth.1, ttsCalls := afterSynth.2.1,
          warns := afterSynth.2.2, rendersOk := st.rendersOk ++ [i + 1],
          items := items1, crashed := false }
      else
        { fs := afterSynth.1, ttsCalls := afterSynth.2.1,
          warns := afterSynth.2.2 ++ [Warn.renderFail (i + 1)],
          rendersOk := st.rendersOk, items := items1, crashed := false }
    else
      { fs := afterSynth.1, ttsCalls := afterSynth.2.1, warns := afterSynth.2.2,
        rendersOk := st.rendersOk, items := items1, crashed := true }

/-- How the process ends. -/
inductive RunExit where
  /-- `sys.exit(1)` during input validation (lines 64-72). -/
  | earlyExit
  /-- an uncaught exception aborted the run (Python exits with a traceback). -/
  | crashed
  /-- `main` ran to its final success message and returned. -/
  | completed
deriving DecidableEq

/-- The process exit code for each way the run ends. -/
def exitCode : RunExit → Nat
  | .earlyExit => 1
  | .crashed => 1
  | .completed => 0

/-- Everything observable about one run. -/
structure Trace where
  exit : RunExit
  warns : List Warn
  ttsCalls : List Nat
  items : List (List Char × List Char)
  rendersOk : List Nat
  /-- `n = min(len(frames), len(lines))` (0 when the run exits early). -/
  nItems : Nat
  /-- the 1-based indices written to `filelist.txt`; `none` if the run never
  reached manifest construction. -/
  manifest : Option (List Nat)
  /-- the manifest lines as written. -/
  filelist : Option (List (List Char))
  fsFinal : List FileId
  /-- whether the final ffmpeg concat invocation was launched. -/
  concatAttempted : Bool

/-- src lines 76-79: the mismatch warnings printed after `n = min(...)`. -/
def mismatchWarns (nf nl : Nat) : List Warn :=
  if min nf nl < nl then [Warn.imagesShort nf nl]
  else if min nf nl < nf then [Warn.linesShort nf nl] else []

/-- The loop state before item 0: initial filesystem, the mismatch warnings
already printed, nothing else. -/
def startState (env : Env) (warns0 : List Warn) : LoopState :=
  { fs := env.fs0, ttsCalls := [], warns := warns0, rendersOk := [], items := [],
    crashed := false }

/-- src lines 74-110: split the text, compute `n`, warn on mismatch, and run
the per-item loop over `range n`. -/
def runItems (env : Env) (frames lines : List (List Char)) : LoopState :=
  (List.range (min frames.length lines.length)).foldl (processItem env frames lines)
    (startState env (mismatchWarns frames.length lines.length))

/-- src lines 112-126: after the loop.  If the loop raised, `main` aborted
with a traceback (no manifest, no concat, exit non-zero).  Otherwise the
manifest lists, in index order, the items `1..n` whose clip file exists
(line 115); the concat invocation is launched unconditionally, its failure
caught and reported (line 124); the success message is printed and `main`
returns — exit code 0 either way. -/
def finishTrace (env : Env) (n : Nat) (st : LoopState) : Trace :=
  if st.crashed then
    { exit := .crashed, warns := st.warns, ttsCalls := st.ttsCalls, items := st.items,
      rendersOk := st.rendersOk, nItems := n, manifest := none, filelist := none,
      fsFinal := st.fs, concatAttempted := false }
  else
    let m := (List.range' 1 n).filter (fun j => decide (FileId.clip j ∈ st.fs))
    { exit := .completed,
      warns := st.warns ++ (if env.concatOk then [] else [Warn.concatFail]),
      ttsCalls := st.ttsCalls, items := st.items, rendersOk := st.rendersOk,
      nItems := n, manifest := some m, filelist := some (m.map lineFor),
      fsFinal := st.fs, concatAttempted := true }

/-- src lines 61-126, `main` after argument parsing, given the image
directory listing and the narration file content (both assumed to exist;
their absence exits 1 before this point):
lines 68-72: filter and sort the images, exit 1 if none;
lines 74-79: split the text, `n = min`, mismatch warnings;
lines 86-110: the per-item loop (see `processItem`);
lines 112-126: manifest, concat and exit (see `finishTrace`). -/
def mainRun (imagePaths : List (List Char)) (content : List Char) (env : Env) : Trace :=
  if (framesOf imagePaths).isEmpty then
    { exit := .earlyExit, warns := [], ttsCalls := [], items := [], rendersOk := [],
      nItems := 0, manifest := none, filelist := none, fsFinal := env.fs0,
      concatAttempted := false }
  else
    let frames := framesOf imagePaths
    let lines := read_lines_with_paragraphs content
    finishTrace env (min frames.length lines.length) (runItems env frames lines)

/-! Concrete fixtures used by witnesses and counterexamples. -/

/-- One image file. -/
def onePng : List (List Char) := ["imgs/a.png".toList]

/-- Two image files. -/
def twoPng : List (List Char) := ["imgs/a.png".toList, "imgs/b.png".toList]

/-- All collaborators succeed, empty initial filesystem. -/
def envAllOk : Env := ⟨[], fun _ => true, fun _ => true, true⟩

/-- All items succeed but the final concatenation fails. -/
def envNoConcat : Env := ⟨[], fun _ => true, fun _ => true, false⟩

/-- The TTS call for loop index 0 fails; everything else succeeds. -/
def envSynthFail0 : Env := ⟨[], fun i => decide (0 < i), fun _ => true, true⟩

/-- A stale `clips/clip001.mp4` and a cached wav exist from a previous run;
every render invocation of this run fails. -/
def envStaleClip : Env := ⟨[FileId.audio 1, FileId.clip 1], fun _ => true, fun _ => false, true⟩

/-- A loop state whose wav for item 1 is already cached. -/
def stCached : LoopState :=
  { fs := [FileId.audio 1], ttsCalls := [], warns := [], rendersOk := [], items := [],
    crashed := false }

/-! ## Helper lemmas about the loop -/

theorem processItem_ok (env : Env) (frames texts : List (List Char)) (st : LoopState)
    (i : Nat) (h : st.crashed = false) (ht : env.ttsOk i = true) :
    (processItem env frames texts st i).crashed = false ∧
    (processItem env frames texts st i).items =
      st.items ++ [(frames.getD i [], texts.getD i [])] ∧
    ∃ w, (processItem env frames texts st i).warns = st.warns ++ w := by
  by_cases hmem : FileId.audio (i + 1) ∈ st.fs <;>
    cases hr : env.renderOk i <;>
      simp [processItem, synthesize_voice, wavReadable, h, ht, hr, hmem]

theorem foldl_processItem_ok (env : Env) (frames texts : List (List Char))
    (l : List Nat) (st : LoopState) (h : st.crashed = false)
    (ht : ∀ i, env.ttsOk i = true) :
    (l.foldl (processItem env frames texts) st).crashed = false ∧
    (l.foldl (processItem env frames texts) st).items =
      st.items ++ l.map (fun i => (frames.getD i [], texts.getD i [])) ∧
    ∃ w, (l.foldl (processItem env frames texts) st).warns = st.warns ++ w := by
  induction l generalizing st with
  | nil => exact ⟨h, by simp, [], by simp⟩
  | cons a l ih =>
    obtain ⟨h1, h2, w0, h3⟩ := processItem_ok env frames texts st a h (ht a)
    obtain ⟨g1, g2, w1, g3⟩ := ih _ h1
    refine ⟨g1, ?_, w0 ++ w1, ?_⟩
    · rw [List.foldl_cons, g2, h2]; simp
    · rw [List.foldl_cons, g3, h3]; simp

theorem map_range_min_zip {α β : Type} (as : List α) (bs : List β) (da : α) (db : β) :
    (List.range (min as.length bs.length)).map (fun i => (as.getD i da, bs.getD i db)) =
      as.zip bs := by
  induction as generalizing bs with
  | nil => simp
  | cons a as ih =>
    cases bs with
    | nil => simp
    | cons b bs =>
      simp only [List.length_cons, Nat.succ_min_succ, List.range_succ_eq_map,
        List.map_cons, List.getD_cons_zero, List.map_map, List.zip_cons_cons]
      refine congrArg _ ?_
      rw [← ih bs]
      exact List.map_congr_left fun i _ => by simp

theorem pairwise_lt_range1 : ∀ (n s : Nat), List.Pairwise (· < ·) (List.range' s n)
  | 0, _ => List.Pairwise.nil
  | n + 1, s => by
    rw [List.range'_succ]
    exact List.Pairwise.cons
      (fun y hy => by have := (List.mem_range'_1.mp hy).1; omega)
      (pairwise_lt_range1 n (s + 1))

theorem processItem_fs_char (env : Env) (frames texts : List (List Char))
    (st : LoopState) (i : Nat) (hcr : st.crashed = false) :
    ∃ (addClip : Bool) (fs1 : List FileId),
      (fs1 = st.fs ∨ fs1 = FileId.audio (i + 1) :: st.fs) ∧
      (processItem env frames texts st i).fs =
        (if addClip then FileId.clip (i + 1) :: fs1 else fs1) ∧
      (processItem env frames texts st i).rendersOk =
        (if addClip then st.rendersOk ++ [i + 1] else st.rendersOk) ∧
      (addClip = true → env.renderOk i = true ∧ FileId.audio (i + 1) ∈ fs1) := by
  by_cases hmem : FileId.audio (i + 1) ∈ st.fs
  · cases hr : env.renderOk i
    · refine ⟨false, st.fs, Or.inl rfl, ?_, ?_, by simp⟩ <;>
        simp [processItem, wavReadable, hcr, hmem, hr]
    · refine ⟨true, st.fs, Or.inl rfl, ?_, ?_, fun _ => ⟨rfl, hmem⟩⟩ <;>
        simp [processItem, wavReadable, hcr, hmem, hr]
  · cases ht : env.ttsOk i
    · refine ⟨false, st.fs, Or.inl rfl, ?_, ?_, by simp⟩ <;>
        simp [processItem, synthesize_voice, wavReadable, hcr, hmem, ht]
    · cases hr : env.renderOk i
      · refine ⟨false, FileId.audio (i + 1) :: st.fs, Or.inr rfl, ?_, ?_, by simp⟩ <;>
          simp [processItem, synthesize_voice, wavReadable, hcr, hmem, ht, hr]
      · refine ⟨true, FileId.audio (i + 1) :: st.fs, Or.inr rfl, ?_, ?_,
          fun _ => ⟨rfl, by simp⟩⟩ <;>
          simp [processItem, synthesize_voice, wavReadable, hcr, hmem, ht, hr]

theorem processItem_clip_inv (env : Env) (frames texts : List (List Char))
    (st : LoopState) (i : Nat)
    (hP : ∀ j, FileId.clip j ∈ st.fs ↔ FileId.clip j ∈ env.fs0 ∨ j ∈ st.rendersOk)
    (hQ : ∀ j ∈ st.rendersOk,
      0 < j ∧ env.renderOk (j - 1) = true ∧ FileId.audio j ∈ st.fs) :
    (∀ j, FileId.clip j ∈ (processItem env frames texts st i).fs ↔
      FileId.clip j ∈ env.fs0 ∨ j ∈ (processItem env frames texts st i).rendersOk) ∧
    (∀ j ∈ (processItem env frames texts st i).rendersOk,
      0 < j ∧ env.renderOk (j - 1) = true ∧
        FileId.audio j ∈ (processItem env frames texts st i).fs) := by
  by_cases hcr : st.crashed
  · simpa [processItem, hcr] using ⟨hP, hQ⟩
  · rw [Bool.not_eq_true] at hcr
    obtain ⟨b, fs1, hfs1, hfs, hrend, himp⟩ :=
      processItem_fs_char env frames texts st i hcr
    have hclip1 : ∀ j, FileId.clip j ∈ fs1 ↔ FileId.clip j ∈ st.fs := by
      rcases hfs1 with rfl | rfl
      · intro j; rfl
      · intro j; simp
    have haud1 : ∀ j, FileId.audio j ∈ st.fs → FileId.audio j ∈ fs1 := by
      rcases hfs1 with rfl | rfl
      · intro j hj; exact hj
      · intro j hj; exact List.mem_cons_of_mem _ hj
    constructor
    · intro j
      rw [hfs, hrend]
      cases b
      · simpa only [if_false, Bool.false_eq_true] using (hclip1 j).trans (hP j)
      · simp only [if_true, List.mem_cons, List.mem_append, List.mem_singleton,
          FileId.clip.injEq, hclip1 j, hP j]
        tauto
    · intro j hj
      rw [hrend] at hj
      rw [hfs]
      cases b
      · simp only [Bool.false_eq_true, if_false] at hj ⊢
        obtain ⟨q1, q2, q3⟩ := hQ j hj
        exact ⟨q1, q2, haud1 j q3⟩
      · simp only [if_true, List.mem_append, List.mem_singleton] at hj
        rcases hj with hj | rfl
        · obtain ⟨q1, q2, q3⟩ := hQ j hj
          exact ⟨q1, q2, List.mem_cons_of_mem _ (haud1 j q3)⟩
        · obtain ⟨hr, hmem1⟩ := himp rfl
          exact ⟨Nat.succ_pos i, by simpa using hr, List.mem_cons_of_mem _ hmem1⟩

theorem foldl_clip_inv (env : Env) (frames texts : List (List Char))
    (l : List Nat) (st : LoopState)
    (hP : ∀ j, FileId.clip j ∈ st.fs ↔ FileId.clip j ∈ env.fs0 ∨ j ∈ st.rendersOk)
    (hQ : ∀ j ∈ st.rendersOk,
      0 < j ∧ env.renderOk (j - 1) = true ∧ FileId.audio j ∈ st.fs) :
    (∀ j, FileId.clip j ∈ (l.foldl (processItem env frames texts) st).fs ↔
      FileId.clip j ∈ env.fs0 ∨ j ∈ (l.foldl (processItem env frames texts) st).rendersOk) ∧
    (∀ j ∈ (l.foldl (processItem env frames texts) st).rendersOk,
      0 < j ∧ env.renderOk (j - 1) = true ∧
        FileId.audio j ∈ (l.foldl (processItem env frames texts) st).fs) := by
  induction l generalizing st with
  | nil => exact ⟨hP, hQ⟩
  | cons a l ih =>
    obtain ⟨hP1, hQ1⟩ := processItem_clip_inv env frames texts st a hP hQ
    exact ih _ hP1 hQ1

theorem isEmpty_false_of_ne_nil {α : Type} {l : List α} (h : l ≠ []) :
    l.isEmpty = false := by
  cases l with
  | nil => exact absurd rfl h
  | cons a l => rfl

theorem runItems_eq (env : Env) (frames lines : List (List Char)) :
    runItems env frames lines =
      (List.range (min frames.length lines.length)).foldl (processItem env frames lines)
        (startState env (mismatchWarns frames.length lines.length)) := rfl

/-! ## Helper lemmas for the Paragraph Splitter (C7) -/

theorem isWs_nl : isWs '\n' = true := by decide

theorem ne_nl_of_not_ws {c : Char} (h : isWs c = false) : c ≠ '\n' := by
  intro e
  rw [e] at h
  exact absurd h (by decide)

theorem rstrip_append (u v : List Char) :
    rstrip (u ++ v) = if rstrip v = [] then rstrip u else u ++ rstrip v := by
  show ((u ++ v).reverse.dropWhile isWs).reverse = _
  rw [List.reverse_append, List.dropWhile_append]
  by_cases hv : (List.dropWhile isWs v.reverse).isEmpty = true
  · have hv' : rstrip v = [] := by
      show (v.reverse.dropWhile isWs).reverse = []
      rw [List.isEmpty_iff.mp hv]
      rfl
    rw [if_pos hv, if_pos hv']
    rfl
  · have hv' : rstrip v ≠ [] := by
      show (v.reverse.dropWhile isWs).reverse ≠ []
      intro hc
      rw [List.reverse_eq_nil_iff] at hc
      rw [hc] at hv
      exact hv rfl
    rw [if_neg hv, if_neg hv', List.reverse_append, List.reverse_reverse]
    rfl

theorem rstrip_eq_nil_iff {l : List Char} :
    rstrip l = [] ↔ ∀ c ∈ l, isWs c = true :=
  List.rdropWhile_eq_nil_iff

theorem rstrip_singleton (a : Char) :
    rstrip [a] = if isWs a then [] else [a] :=
  List.rdropWhile_singleton isWs a

theorem strip_append_ws (u v : List Char) (hu : ∀ c ∈ u, isWs c = true) :
    strip (u ++ v) = strip v := by
  unfold strip
  rw [rstrip_append]
  by_cases h : rstrip v = []
  · rw [if_pos h, h, rstrip_eq_nil_iff.mpr hu]
  · rw [if_neg h]
    exact List.dropWhile_append_of_pos hu

theorem strip_of_all_ws {l : List Char} (h : ∀ c ∈ l, isWs c = true) :
    strip l = [] := by
  unfold strip
  rw [rstrip_eq_nil_iff.mpr h]
  rfl

theorem lstrip_idem (l : List Char) : lstrip (lstrip l) = lstrip l :=
  List.dropWhile_idempotent isWs l

theorem rstrip_idem (l : List Char) : rstrip (rstrip l) = rstrip l :=
  List.rdropWhile_idempotent isWs l

theorem rstrip_lstrip_of_rstripped (l : List Char) (h : rstrip l = l) :
    rstrip (lstrip l) = lstrip l := by
  by_cases hnil : lstrip l = []
  · rw [hnil]; rfl
  · apply List.rdropWhile_eq_self_iff.mpr
    intro hl
    have hlnil : l ≠ [] := by
      intro e
      rw [e] at hnil
      exact hnil rfl
    have h1 : l.getLast? = (lstrip l).getLast? := by
      conv_lhs => rw [← List.takeWhile_append_dropWhile (p := isWs) (l := l)]
      rw [List.getLast?_append, show List.dropWhile isWs l = lstrip l from rfl,
        List.getLast?_eq_getLast _ hl]
      rfl
    have h3 := List.getLast?_eq_getLast _ hl
    have h4 := List.getLast?_eq_getLast _ hlnil
    rw [h4, h3] at h1
    have hgl : (lstrip l).getLast hl = l.getLast hlnil := (Option.some.inj h1).symm
    rw [hgl]
    exact List.rdropWhile_eq_self_iff.mp h hlnil

theorem strip_idem (l : List Char) : strip (strip l) = strip l := by
  show lstrip (rstrip (lstrip (rstrip l))) = lstrip (rstrip l)
  rw [rstrip_lstrip_of_rstripped (rstrip l) (rstrip_idem l)]
  exact lstrip_idem _

theorem cleanBlocks_cons (b : List Char) (bs : List (List Char)) :
    cleanBlocks (b :: bs) =
      if strip b = [] then cleanBlocks bs else strip b :: cleanBlocks bs := by
  by_cases h : strip b = [] <;>
    simp [cleanBlocks, List.filter_cons, h]

theorem consHead_ne_nil (pre : List Char) (X : List (List Char)) :
    consHead pre X ≠ [] := by
  cases X <;> simp [consHead]

theorem consHead_consHead (u v : List Char) (X : List (List Char)) :
    consHead u (consHead v X) = consHead (u ++ v) X := by
  cases X <;> simp [consHead, List.append_assoc]

theorem consHead_nil_of_ne_nil {X : List (List Char)} (h : X ≠ []) :
    consHead [] X = X := by
  cases X with
  | nil => exact absurd rfl h
  | cons x xs => simp [consHead]

theorem splitNN_ne_nil (s : List Char) : splitNN s ≠ [] := by
  match s with
  | [] => simp [splitNN]
  | [c] => simp [splitNN]
  | c1 :: c2 :: rest =>
    rw [splitNN]
    split
    · simp
    · exact consHead_ne_nil _ _

theorem specSplit_ne_nil (s : List Char) : specSplit s ≠ [] := by
  cases s with
  | nil => simp [specSplit]
  | cons c cs =>
    rw [specSplit]
    split
    · split
      · simp
      · exact consHead_ne_nil _ _
    · exact consHead_ne_nil _ _

theorem cleanBlocks_eq_of_heads_tails {X Y : List (List Char)} (hX : X ≠ []) (hY : Y ≠ [])
    (hh : rstrip (X.headD []) = rstrip (Y.headD []))
    (ht : cleanBlocks X.tail = cleanBlocks Y.tail) :
    cleanBlocks X = cleanBlocks Y := by
  obtain ⟨x, xs, rfl⟩ := List.exists_cons_of_ne_nil hX
  obtain ⟨y, ys, rfl⟩ := List.exists_cons_of_ne_nil hY
  simp only [List.headD_cons, List.tail_cons] at hh ht
  have hs : strip x = strip y := by
    unfold strip
    rw [hh]
  rw [cleanBlocks_cons, cleanBlocks_cons, hs, ht]

theorem heads_tails_consHead (pre : List Char) {X Y : List (List Char)}
    (hX : X ≠ []) (hY : Y ≠ [])
    (hh : rstrip (X.headD []) = rstrip (Y.headD []))
    (ht : cleanBlocks X.tail = cleanBlocks Y.tail) :
    rstrip ((consHead pre X).headD []) = rstrip ((consHead pre Y).headD []) ∧
    cleanBlocks (consHead pre X).tail = cleanBlocks (consHead pre Y).tail := by
  obtain ⟨x, xs, rfl⟩ := List.exists_cons_of_ne_nil hX
  obtain ⟨y, ys, rfl⟩ := List.exists_cons_of_ne_nil hY
  simp only [List.headD_cons, List.tail_cons] at hh ht
  simp only [consHead, List.headD_cons, List.tail_cons]
  refine ⟨?_, ht⟩
  rw [rstrip_append, rstrip_append, hh]

theorem splitNN_cons (a : Char) (l : List Char)
    (h : a ≠ '\n' ∨ ∀ t, l ≠ '\n' :: t) :
    splitNN (a :: l) = consHead [a] (splitNN l) := by
  match l with
  | [] => simp [splitNN, consHead]
  | b :: t =>
    have hcond : (a == '\n' && b == '\n') = false := by
      rcases h with h | h
      · simp [beq_eq_false_iff_ne.mpr h]
      · have hb : b ≠ '\n' := by
          intro e
          exact h t (by rw [e])
        simp [beq_eq_false_iff_ne.mpr hb]
    rw [splitNN]
    simp only [hcond, Bool.false_eq_true, if_false]

theorem splitNN_ws_run_no_nn : ∀ (run rest : List Char),
    (∀ c ∈ run, isWs c = true) →
    (∀ d t, rest = d :: t → isWs d = false) →
    hasNN run = false →
    splitNN (run ++ rest) = consHead run (splitNN rest) := by
  intro run
  induction run with
  | nil =>
    intro rest _ _ _
    rw [List.nil_append, consHead_nil_of_ne_nil (splitNN_ne_nil rest)]
  | cons a run' ih =>
    intro rest hws hrest hNN
    have hNN' : hasNN run' = false := by
      cases run' with
      | nil => rfl
      | cons b r =>
        simp only [hasNN, Bool.or_eq_false_iff] at hNN
        exact hNN.2
    have hcond : a ≠ '\n' ∨ ∀ t, run' ++ rest ≠ '\n' :: t := by
      by_cases han : a = '\n'
      · right
        intro t ht
        cases run' with
        | nil =>
          rw [List.nil_append] at ht
          exact absurd (hrest '\n' t ht) (by decide)
        | cons b run'' =>
          rw [List.cons_append] at ht
          have hb : b = '\n' := by
            injection ht
          subst han
          subst hb
          simp [hasNN] at hNN
      · exact Or.inl han
    rw [List.cons_append, splitNN_cons a (run' ++ rest) hcond,
      ih rest (fun c hc => hws c (List.mem_cons_of_mem a hc)) hrest hNN',
      consHead_consHead]
    rfl

theorem splitNN_ws_run_nn : ∀ (k : Nat) (run rest : List Char),
    run.length ≤ k →
    (∀ c ∈ run, isWs c = true) →
    (∀ d t, rest = d :: t → isWs d = false) →
    hasNN run = true →
    rstrip ((splitNN (run ++ rest)).headD []) = [] ∧
    cleanBlocks ((splitNN (run ++ rest)).tail) = cleanBlocks (splitNN rest) := by
  intro k
  induction k with
  | zero =>
    intro run rest hk _ _ hNN
    rw [List.length_eq_zero.mp (Nat.le_zero.mp hk)] at hNN
    simp [hasNN] at hNN
  | succ k ih =>
    intro run rest hk hws hrest hNN
    cases run with
    | nil => simp [hasNN] at hNN
    | cons a run' =>
      cases run' with
      | nil => simp [hasNN] at hNN
      | cons b tl =>
        have hws' : ∀ c ∈ b :: tl, isWs c = true :=
          fun c hc => hws c (List.mem_cons_of_mem a hc)
        by_cases hab : a = '\n' ∧ b = '\n'
        · obtain ⟨rfl, rfl⟩ := hab
          have hsplit : splitNN (('\n' :: '\n' :: tl) ++ rest) =
              [] :: splitNN (tl ++ rest) := by
            rw [List.cons_append, List.cons_append, splitNN]
            simp
          rw [hsplit]
          refine ⟨rfl, ?_⟩
          simp only [List.tail_cons]
          by_cases hNN' : hasNN tl = true
          · obtain ⟨g1, g2⟩ := ih tl rest
              (by simp only [List.length_cons] at hk; omega)
              (fun c hc => hws' c (List.mem_cons_of_mem _ hc)) hrest hNN'
            cases hX : splitNN (tl ++ rest) with
            | nil => exact absurd hX (splitNN_ne_nil _)
            | cons x xs =>
              rw [hX] at g1 g2
              simp only [List.headD_cons, List.tail_cons] at g1 g2
              rw [cleanBlocks_cons, if_pos (by unfold strip; rw [g1]; rfl), g2]
          · rw [splitNN_ws_run_no_nn tl rest
              (fun c hc => hws' c (List.mem_cons_of_mem _ hc)) hrest
              (by rwa [Bool.not_eq_true] at hNN')]
            cases hX : splitNN rest with
            | nil => exact absurd hX (splitNN_ne_nil _)
            | cons x xs =>
              simp only [consHead]
              rw [cleanBlocks_cons, cleanBlocks_cons,
                strip_append_ws tl x (fun c hc => hws' c (List.mem_cons_of_mem _ hc))]
        · have hNN2 : hasNN (b :: tl) = true := by
            simp only [hasNN, Bool.or_eq_true, Bool.and_eq_true, beq_iff_eq] at hNN
            exact hNN.resolve_left hab
          have hsplit : splitNN ((a :: b :: tl) ++ rest) =
              consHead [a] (splitNN ((b :: tl) ++ rest)) := by
            rw [List.cons_append]
            apply splitNN_cons
            by_cases han : a = '\n'
            · right
              intro t ht
              rw [List.cons_append] at ht
              have hb : b = '\n' := by
                injection ht
              exact hab ⟨han, hb⟩
            · exact Or.inl han
          rw [hsplit]
          obtain ⟨g1, g2⟩ := ih (b :: tl) rest
            (by simp only [List.length_cons] at hk ⊢; omega) hws' hrest hNN2
          cases hX : splitNN ((b :: tl) ++ rest) with
          | nil => exact absurd hX (splitNN_ne_nil _)
          | cons x xs =>
            rw [hX] at g1 g2
            simp only [List.headD_cons, List.tail_cons] at g1 g2
            simp only [consHead, List.headD_cons, List.tail_cons]
            refine ⟨?_, g2⟩
            rw [show ([a] ++ x : List Char) = a :: x from rfl, ← List.singleton_append,
              rstrip_append, if_pos g1, rstrip_singleton,
              if_pos (hws a (List.mem_cons_self a (b :: tl)))]

theorem specSplit_nil : specSplit [] = [[]] := by
  rw [specSplit]

theorem specSplit_cons_ws (c : Char) (cs : List Char) (h : isWs c = true) :
    specSplit (c :: cs) =
      if hasNN (c :: cs.takeWhile isWs) then [] :: specSplit (cs.dropWhile isWs)
      else consHead (c :: cs.takeWhile isWs) (specSplit (cs.dropWhile isWs)) := by
  rw [specSplit]
  simp only [h, if_true]

theorem specSplit_cons_not_ws (c : Char) (cs : List Char) (h : isWs c = false) :
    specSplit (c :: cs) = consHead [c] (specSplit cs) := by
  rw [specSplit]
  simp only [h, Bool.false_eq_true, if_false]

theorem splitNN_specSplit_aux : ∀ (k : Nat) (s : List Char), s.length ≤ k →
    rstrip ((splitNN s).headD []) = rstrip ((specSplit s).headD []) ∧
    cleanBlocks ((splitNN s).tail) = cleanBlocks ((specSplit s).tail) := by
  intro k
  induction k with
  | zero =>
    intro s hk
    rw [List.length_eq_zero.mp (Nat.le_zero.mp hk), specSplit_nil]
    exact ⟨rfl, rfl⟩
  | succ k ih =>
    intro s hk
    cases s with
    | nil =>
      rw [specSplit_nil]
      exact ⟨rfl, rfl⟩
    | cons c cs =>
      by_cases hws : isWs c = true
      · have hdecomp : c :: cs = (c :: cs.takeWhile isWs) ++ cs.dropWhile isWs := by
          rw [List.cons_append, List.takeWhile_append_dropWhile]
        have hwsrun : ∀ d ∈ c :: cs.takeWhile isWs, isWs d = true := by
          intro d hd
          rcases List.mem_cons.mp hd with rfl | hd
          · exact hws
          · exact List.mem_takeWhile_imp hd
        have hrestok : ∀ d t, cs.dropWhile isWs = d :: t → isWs d = false := by
          intro d t hdt
          have h2 : (cs.dropWhile isWs).head? = some d := by rw [hdt]; rfl
          have h3 := List.head?_dropWhile_not isWs cs
          rw [h2] at h3
          exact h3
        have hlen : (cs.dropWhile isWs).length ≤ k := by
          have hsub := (List.dropWhile_sublist (l := cs) isWs).length_le
          simp only [List.length_cons] at hk
          omega
        obtain ⟨e1, e2⟩ := ih (cs.dropWhile isWs) hlen
        have hcombined : cleanBlocks (splitNN (cs.dropWhile isWs)) =
            cleanBlocks (specSplit (cs.dropWhile isWs)) :=
          cleanBlocks_eq_of_heads_tails (splitNN_ne_nil _) (specSplit_ne_nil _) e1 e2
        by_cases hnn : hasNN (c :: cs.takeWhile isWs) = true
        · have hspec : specSplit (c :: cs) = [] :: specSplit (cs.dropWhile isWs) := by
            rw [specSplit_cons_ws c cs hws, if_pos hnn]
          have hsplitNN : splitNN (c :: cs) =
              splitNN ((c :: cs.takeWhile isWs) ++ cs.dropWhile isWs) := by
            rw [← hdecomp]
          obtain ⟨g1, g2⟩ := splitNN_ws_run_nn (c :: cs.takeWhile isWs).length
            (c :: cs.takeWhile isWs) (cs.dropWhile isWs) le_rfl hwsrun hrestok hnn
          rw [hsplitNN, hspec]
          refine ⟨by rw [g1]; rfl, ?_⟩
          rw [g2]
          simpa using hcombined
        · have hnn' : hasNN (c :: cs.takeWhile isWs) = false := by
            rwa [Bool.not_eq_true] at hnn
          have hspec : specSplit (c :: cs) =
              consHead (c :: cs.takeWhile isWs) (specSplit (cs.dropWhile isWs)) := by
            rw [specSplit_cons_ws c cs hws, if_neg hnn]
          have hsplitNN : splitNN (c :: cs) =
              consHead (c :: cs.takeWhile isWs) (splitNN (cs.dropWhile isWs)) := by
            conv_lhs => rw [hdecomp]
            exact splitNN_ws_run_no_nn _ _ hwsrun hrestok hnn'
          rw [hsplitNN, hspec]
          exact heads_tails_consHead _ (splitNN_ne_nil _) (specSplit_ne_nil _) e1 e2
      · rw [Bool.not_eq_true] at hws
        have hsplit : splitNN (c :: cs) = consHead [c] (splitNN cs) :=
          splitNN_cons c cs (Or.inl (ne_nl_of_not_ws hws))
        have hspec := specSplit_cons_not_ws c cs hws
        obtain ⟨e1, e2⟩ := ih cs (by simp only [List.length_cons] at hk; omega)
        rw [hsplit, hspec]
        exact heads_tails_consHead _ (splitNN_ne_nil _) (specSplit_ne_nil _) e1 e2

theorem cleanBlocks_splitNN_specSplit (s : List Char) :
    cleanBlocks (splitNN s) = cleanBlocks (specSplit s) := by
  obtain ⟨e1, e2⟩ := splitNN_specSplit_aux s.length s le_rfl
  exact cleanBlocks_eq_of_heads_tails (splitNN_ne_nil _) (specSplit_ne_nil _) e1 e2

theorem specSplit_all_ws (w : List Char) (hw : ∀ c ∈ w, isWs c = true) :
    rstrip ((specSplit w).headD []) = [] ∧ cleanBlocks ((specSplit w).tail) = [] := by
  cases w with
  | nil =>
    rw [specSplit_nil]
    exact ⟨rfl, rfl⟩
  | cons c cs =>
    have hc : isWs c = true := hw c (List.mem_cons_self c cs)
    have hsub : ∀ x ∈ cs, isWs x = true := fun x hx => hw x (List.mem_cons_of_mem c hx)
    have htk : cs.takeWhile isWs = cs := List.takeWhile_eq_self_iff.mpr hsub
    have hdp : cs.dropWhile isWs = [] := List.dropWhile_eq_nil_iff.mpr hsub
    rw [specSplit_cons_ws c cs hc, htk, hdp, specSplit_nil]
    by_cases hnn : hasNN (c :: cs) = true
    · rw [if_pos hnn]
      exact ⟨rfl, rfl⟩
    · rw [if_neg hnn]
      refine ⟨?_, rfl⟩
      simp only [consHead, List.headD_cons]
      rw [List.append_nil]
      exact rstrip_eq_nil_iff.mpr hw

theorem takeWhile_append_of_dropWhile_ne (cs w : List Char)
    (h : cs.dropWhile isWs ≠ []) :
    (cs ++ w).takeWhile isWs = cs.takeWhile isWs ∧
    (cs ++ w).dropWhile isWs = cs.dropWhile isWs ++ w := by
  have hlen : ¬((cs.takeWhile isWs).length = cs.length) := by
    intro he
    have hid := congrArg List.length
      (List.takeWhile_append_dropWhile (p := isWs) (l := cs))
    rw [List.length_append] at hid
    exact h (List.length_eq_zero.mp (by omega))
  constructor
  · rw [List.takeWhile_append, if_neg hlen]
  · rw [List.dropWhile_append, if_neg (by simp only [List.isEmpty_iff]; exact h)]

theorem specSplit_append_ws_aux : ∀ (k : Nat) (s w : List Char), s.length ≤ k →
    (∀ c ∈ w, isWs c = true) →
    rstrip ((specSplit (s ++ w)).headD []) = rstrip ((specSplit s).headD []) ∧
    cleanBlocks ((specSplit (s ++ w)).tail) = cleanBlocks ((specSplit s).tail) := by
  intro k
  induction k with
  | zero =>
    intro s w hk hw
    rw [List.length_eq_zero.mp (Nat.le_zero.mp hk), List.nil_append, specSplit_nil]
    obtain ⟨a1, a2⟩ := specSplit_all_ws w hw
    exact ⟨by rw [a1]; rfl, by rw [a2]; rfl⟩
  | succ k ih =>
    intro s w hk hw
    cases s with
    | nil =>
      rw [List.nil_append, specSplit_nil]
      obtain ⟨a1, a2⟩ := specSplit_all_ws w hw
      exact ⟨by rw [a1]; rfl, by rw [a2]; rfl⟩
    | cons c cs =>
      by_cases hws : isWs c = true
      · by_cases hall : cs.dropWhile isWs = []
        · have hsws : ∀ d ∈ c :: cs, isWs d = true := by
            intro d hd
            rcases List.mem_cons.mp hd with rfl | hd
            · exact hws
            · exact List.dropWhile_eq_nil_iff.mp hall d hd
          have hall2 : ∀ d ∈ (c :: cs) ++ w, isWs d = true := by
            intro d hd
            rcases List.mem_append.mp hd with hd | hd
            · exact hsws d hd
            · exact hw d hd
          obtain ⟨a1, a2⟩ := specSplit_all_ws ((c :: cs) ++ w) hall2
          obtain ⟨b1, b2⟩ := specSplit_all_ws (c :: cs) hsws
          exact ⟨a1.trans b1.symm, a2.trans b2.symm⟩
        · obtain ⟨htk, hdp⟩ := takeWhile_append_of_dropWhile_ne cs w hall
          have hlen : (cs.dropWhile isWs).length ≤ k := by
            have hsub := (List.dropWhile_sublist (l := cs) isWs).length_le
            simp only [List.length_cons] at hk
            omega
          obtain ⟨e1, e2⟩ := ih (cs.dropWhile isWs) w hlen hw
          have hcombined := cleanBlocks_eq_of_heads_tails (specSplit_ne_nil _)
            (specSplit_ne_nil _) e1 e2
          rw [List.cons_append, specSplit_cons_ws c (cs ++ w) hws,
            specSplit_cons_ws c cs hws, htk, hdp]
          by_cases hnn : hasNN (c :: cs.takeWhile isWs) = true
          · rw [if_pos hnn, if_pos hnn]
            exact ⟨rfl, by simpa using hcombined⟩
          · rw [if_neg hnn, if_neg hnn]
            exact heads_tails_consHead _ (specSplit_ne_nil _) (specSplit_ne_nil _) e1 e2
      · rw [Bool.not_eq_true] at hws
        rw [List.cons_append, specSplit_cons_not_ws c (cs ++ w) hws,
          specSplit_cons_not_ws c cs hws]
        obtain ⟨e1, e2⟩ := ih cs w (by simp only [List.length_cons] at hk; omega) hw
        exact heads_tails_consHead _ (specSplit_ne_nil _) (specSplit_ne_nil _) e1 e2

theorem cleanBlocks_specSplit_append_ws (s w : List Char)
    (hw : ∀ c ∈ w, isWs c = true) :
    cleanBlocks (specSplit (s ++ w)) = cleanBlocks (specSplit s) := by
  obtain ⟨e1, e2⟩ := specSplit_append_ws_aux s.length s w le_rfl hw
  exact cleanBlocks_eq_of_heads_tails (specSplit_ne_nil _) (specSplit_ne_nil _) e1 e2

theorem cleanBlocks_specSplit_lstrip (s : List Char) :
    cleanBlocks (specSplit (lstrip s)) = cleanBlocks (specSplit s) := by
  cases s with
  | nil => rfl
  | cons c cs =>
    by_cases hws : isWs c = true
    · have hls : lstrip (c :: cs) = cs.dropWhile isWs := by
        unfold lstrip
        exact List.dropWhile_cons_of_pos hws
      rw [hls, specSplit_cons_ws c cs hws]
      by_cases hnn : hasNN (c :: cs.takeWhile isWs) = true
      · rw [if_pos hnn, cleanBlocks_cons,
          if_pos (show strip ([] : List Char) = [] from rfl)]
      · rw [if_neg hnn]
        have hwsrun : ∀ d ∈ c :: cs.takeWhile isWs, isWs d = true := by
          intro d hd
          rcases List.mem_cons.mp hd with rfl | hd
          · exact hws
          · exact List.mem_takeWhile_imp hd
        cases hX : specSplit (cs.dropWhile isWs) with
        | nil => exact absurd hX (specSplit_ne_nil _)
        | cons x xs =>
          simp only [consHead]
          rw [cleanBlocks_cons, cleanBlocks_cons, strip_append_ws _ _ hwsrun]
    · rw [Bool.not_eq_true] at hws
      rw [show lstrip (c :: cs) = c :: cs from by
        unfold lstrip
        exact List.dropWhile_cons_of_neg (by simp [hws])]

theorem content_eq_rstrip_append (l : List Char) :
    l = rstrip l ++ (l.reverse.takeWhile isWs).reverse ∧
    (∀ c ∈ (l.reverse.takeWhile isWs).reverse, isWs c = true) := by
  constructor
  · show l = (l.reverse.dropWhile isWs).reverse ++ _
    rw [← List.reverse_append, List.takeWhile_append_dropWhile, List.reverse_reverse]
  · intro c hc
    rw [List.mem_reverse] at hc
    exact List.mem_takeWhile_imp hc

theorem lexLe_total : ∀ (a b : List Char), lexLe a b = true ∨ lexLe b a = true := by
  intro a
  induction a with
  | nil => intro b; exact Or.inl rfl
  | cons x xs ih =>
    intro b
    cases b with
    | nil => exact Or.inr rfl
    | cons y ys =>
      simp only [lexLe, beq_iff_eq]
      rcases lt_trichotomy x y with h | rfl | h
      · exact Or.inl (by rw [if_pos h])
      · rcases ih ys with h' | h'
        · refine Or.inl ?_; rw [if_neg (lt_irrefl x), if_pos rfl]; exact h'
        · refine Or.inr ?_; rw [if_neg (lt_irrefl x), if_pos rfl]; exact h'
      · exact Or.inr (by rw [if_pos h])

theorem lexLe_trans : ∀ (a b c : List Char),
    lexLe a b = true → lexLe b c = true → lexLe a c = true := by
  intro a
  induction a with
  | nil => intro b c _ _; rfl
  | cons x xs ih =>
    intro b c h1 h2
    cases b with
    | nil => simp [lexLe] at h1
    | cons y ys =>
      cases c with
      | nil => simp [lexLe] at h2
      | cons z zs =>
        simp only [lexLe, beq_iff_eq] at h1 h2 ⊢
        have d1 : x < y ∨ (x = y ∧ lexLe xs ys = true) := by
          by_cases hxy : x < y
          · exact Or.inl hxy
          · rw [if_neg hxy] at h1
            by_cases hxy2 : x = y
            · rw [if_pos hxy2] at h1; exact Or.inr ⟨hxy2, h1⟩
            · rw [if_neg hxy2] at h1; exact absurd h1 (by simp)
        have d2 : y < z ∨ (y = z ∧ lexLe ys zs = true) := by
          by_cases hyz : y < z
          · exact Or.inl hyz
          · rw [if_neg hyz] at h2
            by_cases hyz2 : y = z
            · rw [if_pos hyz2] at h2; exact Or.inr ⟨hyz2, h2⟩
            · rw [if_neg hyz2] at h2; exact absurd h2 (by simp)
        rcases d1 with h | ⟨rfl, hxs⟩ <;> rcases d2 with h' | ⟨rfl, hys⟩
        · rw [if_pos (lt_trans h h')]
        · rw [if_pos h]
        · rw [if_pos h']
        · rw [if_neg (lt_irrefl x), if_pos rfl]
          exact ih ys zs hxs hys

/-! ## Claim theorems -/

/-- C1: the claim says a synthesis failure for item `k` is isolated — the
warning with the `text[:30]` preview is printed and items `k+1..N` are still
attempted.  The code does print the warning, but `main` ignores
`synthesize_voice`'s return value and calls `get_wav_duration` on the
missing wav (line 95), whose exception is uncaught: the run aborts, the
remaining items are never attempted and no manifest is written.  Evaluated
here at the failing input: two images, blocks "x","y", the TTS call for
item 1 failing. -/
theorem c1_synth_failure_aborts_run :
    (mainRun twoPng ("x\n\ny".toList) envSynthFail0).exit = RunExit.crashed ∧
    exitCode (mainRun twoPng ("x\n\ny".toList) envSynthFail0).exit = 1 ∧
    (mainRun twoPng ("x\n\ny".toList) envSynthFail0).ttsCalls = [0] ∧
    (mainRun twoPng ("x\n\ny".toList) envSynthFail0).items =
      [("imgs/a.png".toList, ['x'])] ∧
    Warn.synthFail ['x'] ∈ (mainRun twoPng ("x\n\ny".toList) envSynthFail0).warns ∧
    (mainRun twoPng ("x\n\ny".toList) envSynthFail0).manifest = none ∧
    (mainRun twoPng ("x\n\ny".toList) envSynthFail0).concatAttempted = false := by
  decide

/-- C3 counterexample: a run whose final concatenation invocation fails.
The failure is caught at line 123 and reported, but `main` then falls
through to the success message and returns — the process exits 0, not
non-zero as the claim states. -/
theorem c3_concat_failure_exits_zero :
    (mainRun onePng ("hi".toList) envNoConcat).exit = RunExit.completed ∧
    exitCode (mainRun onePng ("hi".toList) envNoConcat).exit = 0 ∧
    Warn.concatFail ∈ (mainRun onePng ("hi".toList) envNoConcat).warns ∧
    (mainRun onePng ("hi".toList) envNoConcat).concatAttempted = true := by
  decide

/-- C6 counterexample: a stale `clips/clip001.mp4` exists from a previous
run and this run's render invocation for item 1 fails (no render succeeded
this run, `rendersOk = []`), yet the manifest still lists item 1 — the
manifest test (line 115) is file existence, not this-run success. -/
theorem c6_stale_clip_in_manifest :
    (mainRun onePng ("hello".toList) envStaleClip).manifest = some [1] ∧
    envStaleClip.renderOk 0 = false ∧
    (mainRun onePng ("hello".toList) envStaleClip).rendersOk = [] ∧
    Warn.renderFail 1 ∈ (mainRun onePng ("hello".toList) envStaleClip).warns := by
  decide

/-- C8 counterexample: a text file that yields zero blocks does not
terminate the run — there is no emptiness check on the block list (only
line 70's check on the image list), so the run proceeds with `n = 0`
through manifest and concatenation and exits 0. -/
theorem c8_empty_blocks_completes :
    read_lines_with_paragraphs ("".toList) = [] ∧
    (mainRun onePng ("".toList) envAllOk).exit = RunExit.completed ∧
    exitCode (mainRun onePng ("".toList) envAllOk).exit = 0 ∧
    (mainRun onePng ("".toList) envAllOk).ttsCalls = [] ∧
    (mainRun onePng ("".toList) envAllOk).manifest = some [] ∧
    (mainRun onePng ("".toList) envAllOk).concatAttempted = true := by
  decide

/-- C4: synthesis-cache idempotence, at the step that processes item `i`
(line 92): when `audio/line{i+1:03d}.wav` already exists at the start of the
item's processing the TTS service is not invoked for it, and it is invoked
(once) exactly when the file is absent. -/
theorem c4_cache_skips_tts (env : Env) (frames texts : List (List Char))
    (st : LoopState) (i : Nat) (h : st.crashed = false) :
    (FileId.audio (i + 1) ∈ st.fs →
      (processItem env frames texts st i).ttsCalls = st.ttsCalls) ∧
    (FileId.audio (i + 1) ∉ st.fs →
      (processItem env frames texts st i).ttsCalls = st.ttsCalls ++ [i]) := by
  constructor
  · intro hmem
    simp only [processItem, h, Bool.false_eq_true, if_false, if_pos hmem, wavReadable,
      decide_eq_true_eq]
    cases hr : env.renderOk i <;> simp [hr]
  · intro hmem
    simp only [processItem, h, Bool.false_eq_true, if_false, if_neg hmem, wavReadable,
      synthesize_voice]
    cases ht : env.ttsOk i <;>
      cases hr : env.renderOk i <;>
        simp [ht, hr, hmem]

/-- Witness for C4: with the wav for item 1 cached, processing item 1 makes
no TTS call. -/
theorem c4_cache_skips_tts_witness :
    (processItem envAllOk onePng [['h', 'i']] stCached 0).ttsCalls = stCached.ttsCalls :=
  (c4_cache_skips_tts envAllOk onePng [['h', 'i']] stCached 0 rfl).1 (by decide)

/-- C2: the Item Aligner.  For a run whose inputs pass validation (some
image survives the filter) and whose synthesis calls succeed (so the loop's
uncaught-exception path — the C1 code bug — is not taken), exactly
`N = min(len(frames), len(lines))` items are processed, item `i` pairs image
`i` with block `i` positionally (the items are `frames.zip lines`), a
warning identifying the short side is emitted when the counts differ, and
the run still completes. -/
theorem c2_aligner_min_pairing (imagePaths : List (List Char)) (content : List Char)
    (env : Env) (hf : framesOf imagePaths ≠ []) (ht : ∀ i, env.ttsOk i = true) :
    (mainRun imagePaths content env).exit = RunExit.completed ∧
    (mainRun imagePaths content env).items =
      (framesOf imagePaths).zip (read_lines_with_paragraphs content) ∧
    (mainRun imagePaths content env).nItems =
      min (framesOf imagePaths).length (read_lines_with_paragraphs content).length ∧
    ((framesOf imagePaths).length < (read_lines_with_paragraphs content).length →
      Warn.imagesShort (framesOf imagePaths).length
          (read_lines_with_paragraphs content).length ∈
        (mainRun imagePaths content env).warns) ∧
    ((read_lines_with_paragraphs content).length < (framesOf imagePaths).length →
      Warn.linesShort (framesOf imagePaths).length
          (read_lines_with_paragraphs content).length ∈
        (mainRun imagePaths content env).warns) := by
  have hemp := isEmpty_false_of_ne_nil hf
  obtain ⟨h1, h2, w, h3⟩ := foldl_processItem_ok env (framesOf imagePaths)
    (read_lines_with_paragraphs content)
    (List.range (min (framesOf imagePaths).length
      (read_lines_with_paragraphs content).length))
    (startState env (mismatchWarns (framesOf imagePaths).length
      (read_lines_with_paragraphs content).length))
    rfl ht
  simp only [mainRun, hemp, Bool.false_eq_true, if_false, finishTrace, runItems, h1]
  refine ⟨by trivial, ?_, by trivial, ?_, ?_⟩
  · rw [h2]
    simp only [startState, List.nil_append]
    exact map_range_min_zip _ _ [] []
  · intro hlt
    rw [h3]
    have : mismatchWarns (framesOf imagePaths).length
        (read_lines_with_paragraphs content).length =
        [Warn.imagesShort (framesOf imagePaths).length
          (read_lines_with_paragraphs content).length] := by
      unfold mismatchWarns
      rw [if_pos (by omega)]
    simp [startState, this]
  · intro hlt
    rw [h3]
    have : mismatchWarns (framesOf imagePaths).length
        (read_lines_with_paragraphs content).length =
        [Warn.linesShort (framesOf imagePaths).length
          (read_lines_with_paragraphs content).length] := by
      unfold mismatchWarns
      rw [if_neg (by omega), if_pos (by omega)]
    simp [startState, this]

/-- Witness for C2: one image, two blocks — the run completes with one item
pairing the image with the first block, and the images-short warning is
emitted. -/
theorem c2_aligner_min_pairing_witness :
    (mainRun onePng ("x\n\ny".toList) envAllOk).exit = RunExit.completed ∧
    (mainRun onePng ("x\n\ny".toList) envAllOk).items =
      (framesOf onePng).zip (read_lines_with_paragraphs ("x\n\ny".toList)) ∧
    Warn.imagesShort 1 2 ∈ (mainRun onePng ("x\n\ny".toList) envAllOk).warns := by
  obtain ⟨e1, e2, _, e4, _⟩ :=
    c2_aligner_min_pairing onePng ("x\n\ny".toList) envAllOk (by decide) (fun _ => rfl)
  exact ⟨e1, e2, by simpa using e4 (by decide)⟩

/-- C3 amended: if the final concatenation invocation fails, the failure is
reported (the concat error message is printed) and concatenation is always
attempted, with no special case for an empty manifest — but the process then
prints the completion message and exits 0, not non-zero.  (Stated for runs
that reach concatenation, i.e. whose synthesis calls succeed; a synthesis
failure aborts the run earlier, see C1.) -/
theorem c3_concat_failure_reported_not_fatal (imagePaths : List (List Char))
    (content : List Char) (env : Env) (hf : framesOf imagePaths ≠ [])
    (ht : ∀ i, env.ttsOk i = true) (hcc : env.concatOk = false) :
    (mainRun imagePaths content env).exit = RunExit.completed ∧
    exitCode (mainRun imagePaths content env).exit = 0 ∧
    (mainRun imagePaths content env).concatAttempted = true ∧
    Warn.concatFail ∈ (mainRun imagePaths content env).warns := by
  have hemp := isEmpty_false_of_ne_nil hf
  obtain ⟨h1, _, w, h3⟩ := foldl_processItem_ok env (framesOf imagePaths)
    (read_lines_with_paragraphs content)
    (List.range (min (framesOf imagePaths).length
      (read_lines_with_paragraphs content).length))
    (startState env (mismatchWarns (framesOf imagePaths).length
      (read_lines_with_paragraphs content).length))
    rfl ht
  simp only [mainRun, hemp, Bool.false_eq_true, if_false, finishTrace, runItems, h1]
  refine ⟨by trivial, by trivial, by trivial, ?_⟩
  rw [h3, hcc]
  simp

/-- Witness for C3's amended statement at a concrete run. -/
theorem c3_concat_failure_reported_not_fatal_witness :
    (mainRun onePng ("ab".toList) envNoConcat).exit = RunExit.completed ∧
    exitCode (mainRun onePng ("ab".toList) envNoConcat).exit = 0 ∧
    (mainRun onePng ("ab".toList) envNoConcat).concatAttempted = true ∧
    Warn.concatFail ∈ (mainRun onePng ("ab".toList) envNoConcat).warns :=
  c3_concat_failure_reported_not_fatal onePng ("ab".toList) envNoConcat
    (by decide) (fun _ => rfl) rfl

/-- C6 amended: a clip path appears in the manifest exactly when the clip
file exists on disk at manifest time.  Every manifest entry's clip file
exists; and when no stale clip file for that index pre-existed the run, a
manifest entry does imply that this run's render invocation for the item
succeeded (and that its wav was readable, i.e. the audio step had
succeeded) — but a stale pre-existing clip can enter the manifest even when
this run's steps failed (see the counterexample). -/
theorem c6_manifest_extant_or_rendered (imagePaths : List (List Char))
    (content : List Char) (env : Env) (m : List Nat)
    (h : (mainRun imagePaths content env).manifest = some m) :
    ∀ i ∈ m,
      FileId.clip i ∈ (mainRun imagePaths content env).fsFinal ∧
      (FileId.clip i ∉ env.fs0 →
        i ∈ (mainRun imagePaths content env).rendersOk ∧
        env.renderOk (i - 1) = true ∧
        FileId.audio i ∈ (mainRun imagePaths content env).fsFinal) := by
  by_cases hemp : (framesOf imagePaths).isEmpty
  · simp [mainRun, hemp] at h
  · rw [Bool.not_eq_true] at hemp
    obtain ⟨hP, hQ⟩ := foldl_clip_inv env (framesOf imagePaths)
      (read_lines_with_paragraphs content)
      (List.range (min (framesOf imagePaths).length
        (read_lines_with_paragraphs content).length))
      (startState env (mismatchWarns (framesOf imagePaths).length
        (read_lines_with_paragraphs content).length))
      (by intro j; simp [startState]) (by intro j hj; simp [startState] at hj)
    rw [← runItems_eq] at hP hQ
    simp only [mainRun, hemp, Bool.false_eq_true, if_false, finishTrace] at h ⊢
    by_cases hcr : (runItems env (framesOf imagePaths)
        (read_lines_with_paragraphs content)).crashed
    · simp [hcr] at h
    · rw [Bool.not_eq_true] at hcr
      simp only [hcr, Bool.false_eq_true, if_false] at h ⊢
      obtain rfl := (Option.some.inj h).symm
      intro i hi
      rw [List.mem_filter] at hi
      have hifs := of_decide_eq_true hi.2
      refine ⟨hifs, fun hstale => ?_⟩
      have := (hP i).mp hifs
      rcases this with hc | hrend
      · exact absurd hc hstale
      · obtain ⟨q1, q2, q3⟩ := hQ i hrend
        exact ⟨hrend, q2, q3⟩

/-- Witness for C6's amended statement: in a clean all-success run the
manifest entry 1 is an extant clip that was rendered this run. -/
theorem c6_manifest_extant_or_rendered_witness :
    FileId.clip 1 ∈ (mainRun onePng ("hi".toList) envAllOk).fsFinal ∧
    1 ∈ (mainRun onePng ("hi".toList) envAllOk).rendersOk :=
  ⟨(c6_manifest_extant_or_rendered onePng ("hi".toList) envAllOk [1] (by decide)
      1 (by decide)).1,
   ((c6_manifest_extant_or_rendered onePng ("hi".toList) envAllOk [1] (by decide)
      1 (by decide)).2 (by decide)).1⟩

/-- C8 amended: the run aborts before processing (exit 1, nothing
synthesized, no manifest, no concat) when the filtered image list is empty
(line 70); but an empty text-block list does NOT abort the run — there is no
such check — the run proceeds with `N = 0` items (nothing synthesized),
emits the lines-short warning, builds an empty manifest, still attempts
concatenation and exits 0. -/
theorem c8_empty_input_behavior :
    (∀ (imagePaths : List (List Char)) (content : List Char) (env : Env),
      framesOf imagePaths = [] →
      (mainRun imagePaths content env).exit = RunExit.earlyExit ∧
      exitCode (mainRun imagePaths content env).exit = 1 ∧
      (mainRun imagePaths content env).ttsCalls = [] ∧
      (mainRun imagePaths content env).manifest = none ∧
      (mainRun imagePaths content env).concatAttempted = false) ∧
    (∀ (imagePaths : List (List Char)) (content : List Char) (env : Env),
      framesOf imagePaths ≠ [] →
      read_lines_with_paragraphs content = [] →
      (mainRun imagePaths content env).exit = RunExit.completed ∧
      exitCode (mainRun imagePaths content env).exit = 0 ∧
      (mainRun imagePaths content env).ttsCalls = [] ∧
      Warn.linesShort (framesOf imagePaths).length 0 ∈
        (mainRun imagePaths content env).warns ∧
      (mainRun imagePaths content env).manifest = some [] ∧
      (mainRun imagePaths content env).concatAttempted = true) := by
  constructor
  · intro imagePaths content env hf
    have : (framesOf imagePaths).isEmpty = true := by rw [hf]; rfl
    simp [mainRun, this, exitCode]
  · intro imagePaths content env hf hl
    have hemp := isEmpty_false_of_ne_nil hf
    have hfl : 0 < (framesOf imagePaths).length := List.length_pos.mpr hf
    simp only [mainRun, hemp, Bool.false_eq_true, if_false, runItems, hl,
      List.length_nil, Nat.min_zero, List.range_zero, List.foldl_nil, finishTrace,
      startState, List.range'_zero, List.filter_nil]
    refine ⟨by trivial, by trivial, by trivial, ?_, by trivial, by trivial⟩
    have : mismatchWarns (framesOf imagePaths).length 0 =
        [Warn.linesShort (framesOf imagePaths).length 0] := by
      unfold mismatchWarns
      rw [if_neg (by omega), if_pos (by omega)]
    simp [this]

/-- Witness for C8's amended statement: a listing with no image file exits
early; one image with an empty text completes with zero items. -/
theorem c8_empty_input_behavior_witness :
    (mainRun ["x.txt".toList] ("hi".toList) envAllOk).exit = RunExit.earlyExit ∧
    (mainRun onePng ("".toList) envAllOk).exit = RunExit.completed :=
  ⟨(c8_empty_input_behavior.1 ["x.txt".toList] ("hi".toList) envAllOk (by decide)).1,
   (c8_empty_input_behavior.2 onePng ("".toList) envAllOk (by decide) (by decide)).1⟩

/-- C9: manifest construction.  When the run reaches manifest construction,
the manifest iterates indices `1..N` in order keeping exactly those whose
clip file exists: entries are strictly ascending, each entry's clip file
exists, an index in `1..N` whose clip file does not exist is (silently)
omitted, and the written lines are `file '<path>'` for each kept index. -/
theorem c9_manifest_construction (imagePaths : List (List Char)) (content : List Char)
    (env : Env) (m : List Nat)
    (h : (mainRun imagePaths content env).manifest = some m) :
    List.Pairwise (· < ·) m ∧
    (∀ i ∈ m, FileId.clip i ∈ (mainRun imagePaths content env).fsFinal) ∧
    (∀ i, 1 ≤ i → i ≤ (mainRun imagePaths content env).nItems →
      FileId.clip i ∉ (mainRun imagePaths content env).fsFinal → i ∉ m) ∧
    (mainRun imagePaths content env).filelist = some (m.map lineFor) := by
  by_cases hemp : (framesOf imagePaths).isEmpty
  · simp [mainRun, hemp] at h
  · rw [Bool.not_eq_true] at hemp
    simp only [mainRun, hemp, Bool.false_eq_true, if_false, finishTrace] at h ⊢
    by_cases hcr : (runItems env (framesOf imagePaths)
        (read_lines_with_paragraphs content)).crashed
    · simp [hcr] at h
    · rw [Bool.not_eq_true] at hcr
      simp only [hcr, Bool.false_eq_true, if_false] at h ⊢
      obtain rfl := (Option.some.inj h).symm
      refine ⟨(pairwise_lt_range1 _ _).filter _, ?_, ?_, rfl⟩
      · intro i hi
        exact of_decide_eq_true (List.mem_filter.mp hi).2
      · intro i _ _ hnot hin
        exact hnot (of_decide_eq_true (List.mem_filter.mp hin).2)

/-- Witness for C9 at a concrete completed run. -/
theorem c9_manifest_construction_witness :
    List.Pairwise (· < ·) [1] ∧
    (mainRun onePng ("hi".toList) envAllOk).filelist = some ([1].map lineFor) := by
  obtain ⟨p1, _, _, p4⟩ :=
    c9_manifest_construction onePng ("hi".toList) envAllOk [1] (by decide)
  exact ⟨p1, p4⟩

/-- C10: image selection.  A path from the directory listing is kept exactly
when its pathlib suffix, lowercased, is one of `.png`, `.jpg`, `.jpeg`,
`.bmp` — so `IMG.PNG` and `img.png` are both kept — and the kept paths are
ordered by lexicographic comparison of the full paths. -/
theorem c10_image_selection :
    (∀ (imagePaths : List (List Char)) (p : List Char),
      p ∈ framesOf imagePaths ↔ p ∈ imagePaths ∧ keepImage p = true) ∧
    (∀ imagePaths : List (List Char), List.Pairwise lexLeP (framesOf imagePaths)) ∧
    keepImage ("dir/IMG.PNG".toList) = true ∧
    keepImage ("dir/img.png".toList) = true ∧
    keepImage ("dir/img.txt".toList) = false := by
  refine ⟨?_, ?_, by decide, by decide, by decide⟩
  · intro imagePaths p
    rw [framesOf, List.mem_insertionSort, List.mem_filter]
  · intro imagePaths
    haveI : IsTotal (List Char) lexLeP := ⟨lexLe_total⟩
    haveI : IsTrans (List Char) lexLeP := ⟨lexLe_trans⟩
    exact List.sorted_insertionSort lexLeP _

/-- C7: the Paragraph Splitter.  For every narration text, the blocks
produced by `read_lines_with_paragraphs` (split on `"\n\n"` after stripping
the whole content, strip each block, discard empties) are exactly the blocks
prescribed by the spec's rule (split on any maximal whitespace run
containing at least two consecutive line breaks, trim each block, discard
blocks empty after trimming) — `specBlocks`; block order matches source
order because both definitions emit blocks left to right; and no produced
block is empty or whitespace-only (each is nonempty and fixed by `strip`). -/
theorem c7_paragraph_splitter (content : List Char) :
    read_lines_with_paragraphs content = specBlocks content ∧
    ∀ b ∈ read_lines_with_paragraphs content, b ≠ [] ∧ strip b = b := by
  constructor
  · show cleanBlocks (splitNN (strip content)) = cleanBlocks (specSplit content)
    rw [cleanBlocks_splitNN_specSplit,
      show strip content = lstrip (rstrip content) from rfl,
      cleanBlocks_specSplit_lstrip (rstrip content)]
    obtain ⟨hdec, hws⟩ := content_eq_rstrip_append content
    conv_rhs => rw [hdec]
    exact (cleanBlocks_specSplit_append_ws (rstrip content) _ hws).symm
  · intro b hb
    have hb' := hb
    unfold read_lines_with_paragraphs cleanBlocks at hb'
    rw [List.mem_filter] at hb'
    obtain ⟨hmap, hne⟩ := hb'
    refine ⟨?_, ?_⟩
    · intro he
      rw [he] at hne
      simp at hne
    · obtain ⟨a, _, rfl⟩ := List.mem_map.mp hmap
      exact strip_idem a

/-- Witness for C7 at a concrete narration text and block. -/
theorem c7_paragraph_splitter_witness :
    read_lines_with_paragraphs ("a\n\n b c ".toList) =
      specBlocks ("a\n\n b c ".toList) ∧
    (['b', ' ', 'c'] ≠ ([] : List Char) ∧ strip ['b', ' ', 'c'] = ['b', ' ', 'c']) :=
  ⟨(c7_paragraph_splitter ("a\n\n b c ".toList)).1,
   (c7_paragraph_splitter ("a\n\n b c ".toList)).2 ['b', ' ', 'c'] (by decide)⟩

end CreateVideo
